import Mathlib

/-!
Verification of the `tuckerlsb` LSB steganography program.

The source (`tuckerlsb.py`) hides a text message in the least-significant
bits of the first channel of an image's pixels, terminated by a 16-bit
delimiter, and reveals it again by scanning those bits.

Shallow embedding conventions:
* a message is a `List Nat` of character code values (`ord`);
* a pixel is a `Nat × List Nat`: first channel (the embedding channel)
  plus the remaining channels;
* an image is a width, a height and a pixel function; the PIL access
  `pixels[a, b]` means `px a b` and is valid iff `a < width ∧ b < height`
  (PIL's `size[0]` is the width, indexed first);
* out-of-bounds pixel access (a Python `IndexError`) is modelled by
  `Option`: `none` is a raised exception, `some` a normal return.
-/

/-- A pixel: embedding channel value, then the remaining channel values. -/
abbrev Pixel := Nat × List Nat

/-- An image: dimensions plus a pixel-grid function.  `px a b` models the
PIL access `pixels[a, b]` (first index bounded by `width`). -/
structure Img where
  width : Nat
  height : Nat
  px : Nat → Nat → Pixel

/-- The 16-bit end-of-message delimiter `'1111111111111110'` (line 32). -/
def delimeter : List Nat := [1, 1, 1, 1, 1, 1, 1, 1, 1, 1, 1, 1, 1, 1, 1, 0]

/-- Fuel-driven big-endian binary digits; fuel `n` suffices for value `n`.
`toBinAux f n` equals the digit list of Python `format(n, 'b')` for `n > 0`. -/
def toBinAux : Nat → Nat → List Nat
  | _, 0 => []
  | 0, _ + 1 => []
  | f + 1, n + 1 => toBinAux f ((n + 1) / 2) ++ [(n + 1) % 2]

/-- Big-endian binary digits of `n` (empty for `0`). -/
def toBin (n : Nat) : List Nat := toBinAux n n

/-- Digits of Python `format(n, 'b')`: `'0'` for zero, otherwise the
binary digits. -/
def binRepr (n : Nat) : List Nat := if n = 0 then [0] else toBin n

/-- Python `format(c, '08b')` (line 49): the binary digits of `c`
left-padded with zeros to width 8 (longer than 8 digits if `c ≥ 256`). -/
def format08b (c : Nat) : List Nat :=
  List.replicate (8 - (binRepr c).length) 0 ++ binRepr c

/-- `text_to_binary` (lines 34-52): concatenation of `format(ord(ch), '08b')`
over the message's characters, in order. -/
def text_to_binary (message : List Nat) : List Nat :=
  (message.map format08b).flatten

/-- Python `int(byte, 2)`: value of a big-endian digit list. -/
def bitsToNat (bs : List Nat) : Nat := bs.foldl (fun a b => 2 * a + b) 0

/-- `binary_to_text` (lines 85-103): split into chunks of 8 starting at
indices `0, 8, 16, ...`; each chunk - including a final chunk shorter
than 8, as produced by the slice `binary_message[i:i+8]` - is parsed by
`int(byte, 2)` and becomes one character code. -/
def binary_to_text : List Nat → List Nat
  | [] => []
  | b0 :: b1 :: b2 :: b3 :: b4 :: b5 :: b6 :: b7 :: rest =>
      bitsToNat [b0, b1, b2, b3, b4, b5, b6, b7] :: binary_to_text rest
  | bs => [bitsToNat bs]

/-- Line 72: `pixel[0] = (pixel[0] & ~1) | bit_to_write` - clear the LSB
of the embedding channel and OR in the message bit. -/
def lsbWrite (p : Pixel) (b : Nat) : Pixel := (2 * (p.1 / 2) + b, p.2)

/-- A guarded PIL pixel read `pixels[x, y]`; `none` models `IndexError`. -/
def readPx (g : Img) (x y : Nat) : Option Pixel :=
  if x < g.width ∧ y < g.height then some (g.px x y) else none

/-- Functional pixel-grid update at `pixels[x, y]` (dimensions unchanged). -/
def pxWrite (g : Img) (x y : Nat) (p : Pixel) : Img :=
  { g with px := fun a b => if a = x ∧ b = y then p else g.px a b }

/-- A guarded PIL pixel write `pixels[x, y] = p`; `none` models `IndexError`. -/
def writePx (g : Img) (x y : Nat) (p : Pixel) : Option Img :=
  if x < g.width ∧ y < g.height then some (pxWrite g x y p) else none

/-- The loop-index pairs of `for row in range(size[0]): for column in
range(size[1])` (lines 66-67 and 121-122), in visit order. -/
def scanPairs (W H : Nat) : List (Nat × Nat) :=
  (List.range W).flatMap (fun r => (List.range H).map (fun c => (r, c)))

/-- The embedding walk of `hide_message` (lines 66-80): for each loop pair
`(row, column)` while bits remain, read `pixels[row, column]`, overwrite
the embedding channel's LSB with the next bit, write the tuple back at
the swapped index `pixels[column, row]`, and advance; once the bits are
exhausted the `for/else/break` ladder stops the walk. -/
def hideLoop : List (Nat × Nat) → List Nat → Img → Option Img
  | _, [], g => some g
  | [], _ :: _, g => some g
  | (r, c) :: ps, b :: bs, g =>
    match readPx g r c with
    | none => none
    | some p =>
      match writePx g c r (lsbWrite p b) with
      | none => none
      | some g2 => hideLoop ps bs g2

/-- `hide_message` (lines 54-83) up to file I/O: embed
`text_to_binary(message) + delimeter` along the scan. -/
def hide_message (g : Img) (message : List Nat) : Option Img :=
  hideLoop (scanPairs g.width g.height) (text_to_binary message ++ delimeter) g

/-- Unguarded variant of `hideLoop`, used to name the result grid when
every access is in bounds. -/
def hideLoopT : List (Nat × Nat) → List Nat → Img → Img
  | _, [], g => g
  | [], _ :: _, g => g
  | (r, c) :: ps, b :: bs, g => hideLoopT ps bs (pxWrite g c r (lsbWrite (g.px r c) b))

/-- The code values of the literal `"ERROR"` returned on line 131. -/
def errStr : List Nat := [69, 82, 82, 79, 82]

/-- The extraction walk of `reveal_message` (lines 121-131): for each loop
pair `(row, column)` read `pixels[column, row]`, append the embedding
channel's LSB to the buffer; if the buffer now ends with the delimiter,
drop those 16 bits and return the decoded prefix; if the pairs run out,
return `"ERROR"`. -/
def revealLoop : List (Nat × Nat) → List Nat → Img → Option (List Nat)
  | [], _, _ => some errStr
  | (r, c) :: ps, acc, g =>
    match readPx g c r with
    | none => none
    | some p =>
      if delimeter <:+ (acc ++ [p.1 % 2]) then
        some (binary_to_text ((acc ++ [p.1 % 2]).take ((acc ++ [p.1 % 2]).length - 16)))
      else revealLoop ps (acc ++ [p.1 % 2]) g

/-- `reveal_message` (lines 105-131) up to file I/O. -/
def reveal_message (g : Img) : Option (List Nat) :=
  revealLoop (scanPairs g.width g.height) [] g

/-- The buffer recursion of `reveal_message` on the raw LSB sequence:
`revealBits acc bs` is what the loop computes from buffer `acc` and
remaining bits `bs` when no pixel access fails. -/
def revealBits : List Nat → List Nat → List Nat
  | _, [] => errStr
  | acc, b :: bs =>
    if delimeter <:+ (acc ++ [b]) then
      binary_to_text ((acc ++ [b]).take ((acc ++ [b]).length - 16))
    else revealBits (acc ++ [b]) bs

/-- The sequence of embedding-channel LSBs at the coordinates
`pixels[column, row]` visited by `reveal_message`, in scan order
(unguarded: the full intended scan, ignoring bounds). -/
def bitStream (g : Img) : List Nat :=
  (scanPairs g.width g.height).map (fun q => (g.px q.2 q.1).1 % 2)

/-- Per step of `hide_message`: the read index pair `pixels[row, column]`
(line 69) and the write index pair `pixels[column, row]` (line 74). -/
def hideAccess (W H : Nat) : List ((Nat × Nat) × (Nat × Nat)) :=
  (scanPairs W H).map (fun p => ((p.1, p.2), (p.2, p.1)))

/-- Per step of `reveal_message`: the read index pair `pixels[column, row]`
(line 123). -/
def revealAccess (W H : Nat) : List (Nat × Nat) :=
  (scanPairs W H).map (fun p => (p.2, p.1))

/-- An all-zero image of the given dimensions (single-channel pixels). -/
def zeroGrid (w h : Nat) : Img := ⟨w, h, fun _ _ => (0, [])⟩

/-- A 2 by 2 image whose secondary channel differs between the two
off-diagonal pixels. -/
def gridC2 : Img :=
  ⟨2, 2, fun x y =>
    if x = 0 ∧ y = 1 then (0, [5]) else if x = 1 ∧ y = 0 then (0, [9]) else (0, [0])⟩

/-- A 4 by 4 image whose embedding-channel LSBs along the extraction scan
spell exactly the delimiter. -/
def gridC4 : Img := ⟨4, 4, fun x y => (delimeter.getD (4 * y + x) 0, [])⟩

/-- A 4 by 4 image with a single pixel whose embedding channel is 2. -/
def gridC8 : Img := ⟨4, 4, fun x y => if x = 0 ∧ y = 1 then (2, []) else (0, [])⟩

example : text_to_binary [72, 105] =
    [0,1,0,0,1,0,0,0, 0,1,1,0,1,0,0,1] := by decide

example : binary_to_text [0,1,0,0,1,0,0,0, 0,1,1,0,1,0,0,1] = [72, 105] := by decide

example : binary_to_text [1] = [1] := by decide

example : scanPairs 2 3 = [(0,0),(0,1),(0,2),(1,0),(1,1),(1,2)] := by decide

example : (hide_message (zeroGrid 2 2) []).isSome = true := by decide

example : (hide_message (zeroGrid 5 5) [65]).bind reveal_message = some [65] := by decide

example : reveal_message (zeroGrid 1 2) = none := by decide

example : reveal_message (zeroGrid 2 2) = some errStr := by decide

/-! ### Lemmas about the text codec -/

theorem toBinAux_fuel (f : Nat) : ∀ g n, n ≤ f → n ≤ g → toBinAux f n = toBinAux g n := by
  induction f with
  | zero =>
    intro g n hf _
    cases n with
    | zero => cases g <;> rfl
    | succ n => omega
  | succ f ih =>
    intro g n hf hg
    cases n with
    | zero => cases g <;> rfl
    | succ n =>
      cases g with
      | zero => omega
      | succ g =>
        show toBinAux f ((n + 1) / 2) ++ [(n + 1) % 2] =
          toBinAux g ((n + 1) / 2) ++ [(n + 1) % 2]
        rw [ih g ((n + 1) / 2) (by omega) (by omega)]

theorem toBin_eq (n : Nat) : toBin n = if n = 0 then [] else toBin (n / 2) ++ [n % 2] := by
  cases n with
  | zero => rfl
  | succ n =>
    rw [if_neg (Nat.succ_ne_zero n)]
    show toBinAux n ((n + 1) / 2) ++ [(n + 1) % 2] =
      toBinAux ((n + 1) / 2) ((n + 1) / 2) ++ [(n + 1) % 2]
    rw [toBinAux_fuel n ((n + 1) / 2) ((n + 1) / 2) (by omega) (le_refl _)]

theorem toBin_bits : ∀ n, ∀ b ∈ toBin n, b ≤ 1 := by
  intro n
  induction n using Nat.strong_induction_on with
  | _ n ih =>
    intro b hb
    rw [toBin_eq] at hb
    by_cases h : n = 0
    · rw [if_pos h] at hb; simp at hb
    · rw [if_neg h] at hb
      rcases List.mem_append.mp hb with h2 | h2
      · exact ih (n / 2) (Nat.div_lt_self (Nat.pos_of_ne_zero h) one_lt_two) b h2
      · have : b = n % 2 := by simpa using h2
        omega

theorem toBin_length_le : ∀ k n, n < 2 ^ k → (toBin n).length ≤ k := by
  intro k
  induction k with
  | zero =>
    intro n hn
    have : n = 0 := by simpa using hn
    subst this
    simp [toBin, toBinAux]
  | succ k ih =>
    intro n hn
    rw [toBin_eq]
    by_cases h : n = 0
    · simp [h]
    · rw [if_neg h]
      have hdiv : n / 2 < 2 ^ k := by
        rw [Nat.pow_succ] at hn
        exact Nat.div_lt_iff_lt_mul Nat.two_pos |>.mpr hn
      have := ih (n / 2) hdiv
      simp only [List.length_append, List.length_cons, List.length_nil]
      omega

theorem bitsToNat_snoc (l : List Nat) (b : Nat) :
    bitsToNat (l ++ [b]) = 2 * bitsToNat l + b := by
  simp [bitsToNat, List.foldl_append]

theorem bitsToNat_toBin : ∀ n, bitsToNat (toBin n) = n := by
  intro n
  induction n using Nat.strong_induction_on with
  | _ n ih =>
    rw [toBin_eq]
    by_cases h : n = 0
    · rw [if_pos h, h]; rfl
    · rw [if_neg h, bitsToNat_snoc,
        ih (n / 2) (Nat.div_lt_self (Nat.pos_of_ne_zero h) one_lt_two)]
      omega

theorem bitsToNat_cons_zero (l : List Nat) : bitsToNat (0 :: l) = bitsToNat l := by
  simp [bitsToNat]

theorem bitsToNat_replicate_zero (k : Nat) (l : List Nat) :
    bitsToNat (List.replicate k 0 ++ l) = bitsToNat l := by
  induction k with
  | zero => rfl
  | succ k ih => rw [List.replicate_succ, List.cons_append, bitsToNat_cons_zero, ih]

theorem bitsToNat_binRepr (n : Nat) : bitsToNat (binRepr n) = n := by
  by_cases h : n = 0
  · rw [h]; rfl
  · rw [binRepr, if_neg h, bitsToNat_toBin]

theorem bitsToNat_format08b (c : Nat) : bitsToNat (format08b c) = c := by
  rw [format08b, bitsToNat_replicate_zero, bitsToNat_binRepr]

theorem binRepr_length_le (c : Nat) (h : c ≤ 255) : (binRepr c).length ≤ 8 := by
  by_cases h0 : c = 0
  · rw [h0]; simp [binRepr]
  · rw [binRepr, if_neg h0]
    exact toBin_length_le 8 c (by norm_num; omega)

theorem binRepr_length_pos (c : Nat) : 0 < (binRepr c).length := by
  by_cases h0 : c = 0
  · rw [h0]; simp [binRepr]
  · rw [binRepr, if_neg h0, toBin_eq, if_neg h0]
    simp

theorem format08b_length (c : Nat) (h : c ≤ 255) : (format08b c).length = 8 := by
  have := binRepr_length_le c h
  simp only [format08b, List.length_append, List.length_replicate]
  omega

theorem format08b_bits (c : Nat) : ∀ b ∈ format08b c, b ≤ 1 := by
  intro b hb
  rcases List.mem_append.mp hb with h2 | h2
  · have := List.eq_of_mem_replicate h2
    omega
  · by_cases h0 : c = 0
    · rw [h0] at h2; simp [binRepr] at h2; omega
    · rw [binRepr, if_neg h0] at h2
      exact toBin_bits c b h2

theorem text_to_binary_nil : text_to_binary [] = [] := rfl

theorem text_to_binary_cons (c : Nat) (cs : List Nat) :
    text_to_binary (c :: cs) = format08b c ++ text_to_binary cs := by
  simp [text_to_binary]

theorem text_to_binary_length (msg : List Nat) (h : ∀ c ∈ msg, c ≤ 255) :
    (text_to_binary msg).length = 8 * msg.length := by
  induction msg with
  | nil => rfl
  | cons c cs ih =>
    rw [text_to_binary_cons]
    have h8 := format08b_length c (h c (List.mem_cons_self c cs))
    have := ih (fun x hx => h x (List.mem_cons_of_mem c hx))
    simp only [List.length_append, List.length_cons]
    omega

theorem text_to_binary_bits (msg : List Nat) : ∀ b ∈ text_to_binary msg, b ≤ 1 := by
  induction msg with
  | nil => intro b hb; simp [text_to_binary] at hb
  | cons c cs ih =>
    intro b hb
    rw [text_to_binary_cons] at hb
    rcases List.mem_append.mp hb with h2 | h2
    · exact format08b_bits c b h2
    · exact ih b h2

theorem delimeter_bits : ∀ b ∈ delimeter, b ≤ 1 := by decide

theorem binary_to_text_step (bs : List Nat) (h : bs ≠ []) :
    binary_to_text bs = bitsToNat (bs.take 8) :: binary_to_text (bs.drop 8) := by
  rcases bs with _ | ⟨b0, _ | ⟨b1, _ | ⟨b2, _ | ⟨b3, _ | ⟨b4, _ | ⟨b5, _ | ⟨b6, _ | ⟨b7, rest⟩⟩⟩⟩⟩⟩⟩⟩
  · exact absurd rfl h
  all_goals rfl

theorem binary_to_text_text_to_binary (msg : List Nat) (h : ∀ c ∈ msg, c ≤ 255) :
    binary_to_text (text_to_binary msg) = msg := by
  induction msg with
  | nil => rfl
  | cons c cs ih =>
    rw [text_to_binary_cons]
    have h8 : (format08b c).length = 8 := format08b_length c (h c (List.mem_cons_self c cs))
    have hne : format08b c ++ text_to_binary cs ≠ [] := by
      apply List.ne_nil_of_length_pos
      rw [List.length_append, h8]
      omega
    rw [binary_to_text_step _ hne, List.take_left' h8, List.drop_left' h8,
      bitsToNat_format08b, ih (fun x hx => h x (List.mem_cons_of_mem c hx))]

/-! ### Lemmas about the scan order -/

theorem scanPairs_zero_height (W : Nat) : scanPairs W 0 = [] := by
  apply List.eq_nil_iff_forall_not_mem.mpr
  intro p hp
  simp only [scanPairs, List.mem_flatMap, List.mem_map, List.mem_range] at hp
  obtain ⟨r, _, c, hc, _⟩ := hp
  exact absurd hc (Nat.not_lt_zero c)

theorem scanPairs_succ_left (W H : Nat) :
    scanPairs (W + 1) H = scanPairs W H ++ (List.range H).map (fun c => (W, c)) := by
  simp only [scanPairs, List.range_succ, List.flatMap_append]
  simp

theorem scanPairs_eq (W H : Nat) :
    scanPairs W H = (List.range (W * H)).map (fun k => (k / H, k % H)) := by
  rcases Nat.eq_zero_or_pos H with h0 | hpos
  · subst h0
    rw [Nat.mul_zero, scanPairs_zero_height]
    rfl
  · induction W with
    | zero => rw [Nat.zero_mul]; rfl
    | succ W ih =>
      rw [scanPairs_succ_left, ih, Nat.succ_mul, List.range_add, List.map_append,
        List.map_map]
      congr 1
      apply List.map_congr_left
      intro k hk
      have hkH : k < H := List.mem_range.mp hk
      have hd : (W * H + k) / H = W := by
        rw [Nat.add_comm, Nat.mul_comm, Nat.add_mul_div_left _ _ hpos,
          Nat.div_eq_of_lt hkH, Nat.zero_add]
      have hm : (W * H + k) % H = k := by
        rw [Nat.add_comm, Nat.mul_comm, Nat.add_mul_mod_self_left, Nat.mod_eq_of_lt hkH]
      simp only [Function.comp_apply]
      rw [hd, hm]

theorem scanPairs_length (W H : Nat) : (scanPairs W H).length = W * H := by
  rw [scanPairs_eq]; simp

theorem scanPairs_get (W H k : Nat) (h : k < (scanPairs W H).length) :
    (scanPairs W H).get ⟨k, h⟩ = (k / H, k % H) := by
  rw [List.get_of_eq (scanPairs_eq W H)]
  simp

theorem scanPairs_nodup (W H : Nat) : (scanPairs W H).Nodup := by
  rw [scanPairs_eq]
  apply List.Nodup.map_on ?inj (List.nodup_range _)
  intro x _ y _ hxy
  have h1 : x / H = y / H := congrArg Prod.fst hxy
  have h2 : x % H = y % H := congrArg Prod.snd hxy
  have hx := Nat.div_add_mod x H
  have hy := Nat.div_add_mod y H
  rw [h1, h2] at hx
  rw [← hx, hy]

theorem scanPairs_mem (W H : Nat) (p : Nat × Nat) :
    p ∈ scanPairs W H ↔ p.1 < W ∧ p.2 < H := by
  obtain ⟨a, b⟩ := p
  simp only [scanPairs, List.mem_flatMap, List.mem_map, List.mem_range, Prod.mk.injEq]
  constructor
  · rintro ⟨r, hr, c, hc, rfl, rfl⟩
    exact ⟨hr, hc⟩
  · rintro ⟨h1, h2⟩
    exact ⟨a, h1, b, h2, rfl, rfl⟩

/-! ### Lemmas about the embedding walk -/

theorem pxWrite_px (g : Img) (x y : Nat) (p : Pixel) (a b : Nat) :
    (pxWrite g x y p).px a b = if a = x ∧ b = y then p else g.px a b := rfl

theorem hideLoopT_dims : ∀ (ps : List (Nat × Nat)) (bs : List Nat) (g : Img),
    (hideLoopT ps bs g).width = g.width ∧ (hideLoopT ps bs g).height = g.height := by
  intro ps
  induction ps with
  | nil => intro bs g; cases bs <;> exact ⟨rfl, rfl⟩
  | cons p ps ih =>
    intro bs g
    cases bs with
    | nil => exact ⟨rfl, rfl⟩
    | cons b bs =>
      obtain ⟨r, c⟩ := p
      exact ih bs (pxWrite g c r (lsbWrite (g.px r c) b))

theorem hideLoopT_frame : ∀ (ps : List (Nat × Nat)) (bs : List Nat) (g : Img) (x y : Nat),
    (x, y) ∉ (ps.take bs.length).map Prod.swap →
    (hideLoopT ps bs g).px x y = g.px x y := by
  intro ps
  induction ps with
  | nil => intro bs g x y _; cases bs <;> rfl
  | cons p ps ih =>
    intro bs g x y h
    cases bs with
    | nil => rfl
    | cons b bs =>
      obtain ⟨r, c⟩ := p
      simp only [List.length_cons, List.take_succ_cons, List.map_cons, List.mem_cons,
        Prod.swap_prod_mk, not_or] at h
      obtain ⟨hne, hnm⟩ := h
      show (hideLoopT ps bs (pxWrite g c r (lsbWrite (g.px r c) b))).px x y = g.px x y
      rw [ih bs _ x y hnm, pxWrite_px, if_neg]
      rintro ⟨rfl, rfl⟩
      exact hne rfl

theorem hideLoopT_lsb : ∀ (ps : List (Nat × Nat)) (bs : List Nat) (g : Img) (k : Nat)
    (h1 : k < ps.length) (h2 : k < bs.length),
    ps.Nodup → (∀ b ∈ bs, b ≤ 1) →
    ((hideLoopT ps bs g).px (ps.get ⟨k, h1⟩).2 (ps.get ⟨k, h1⟩).1).1 % 2 = bs.get ⟨k, h2⟩ := by
  intro ps
  induction ps with
  | nil => intro bs g k h1; exact absurd h1 (Nat.not_lt_zero k)
  | cons p ps ih =>
    intro bs g k h1 h2 hnd hb
    cases bs with
    | nil => exact absurd h2 (Nat.not_lt_zero k)
    | cons b bs =>
      obtain ⟨r, c⟩ := p
      cases k with
      | zero =>
        show ((hideLoopT ps bs (pxWrite g c r (lsbWrite (g.px r c) b))).px c r).1 % 2 = b
        have hnotmem : (c, r) ∉ (ps.take bs.length).map Prod.swap := by
          intro hm
          rcases List.mem_map.mp hm with ⟨q, hq, hswap⟩
          obtain ⟨q1, q2⟩ := q
          simp only [Prod.swap_prod_mk, Prod.mk.injEq] at hswap
          obtain ⟨rfl, rfl⟩ := hswap
          exact (List.nodup_cons.mp hnd).1 (List.mem_of_mem_take hq)
        rw [hideLoopT_frame ps bs _ c r hnotmem, pxWrite_px, if_pos ⟨rfl, rfl⟩]
        show (2 * ((g.px r c).1 / 2) + b) % 2 = b
        have hb1 : b ≤ 1 := hb b (List.mem_cons_self b bs)
        omega
      | succ k =>
        exact ih bs (pxWrite g c r (lsbWrite (g.px r c) b)) k
          (Nat.lt_of_succ_lt_succ h1) (Nat.lt_of_succ_lt_succ h2)
          (List.nodup_cons.mp hnd).2 (fun x hx => hb x (List.mem_cons_of_mem b hx))

theorem hideLoop_eq_total : ∀ (ps : List (Nat × Nat)) (bs : List Nat) (g : Img),
    (∀ q ∈ ps, q.1 < g.width ∧ q.2 < g.height ∧ q.2 < g.width ∧ q.1 < g.height) →
    hideLoop ps bs g = some (hideLoopT ps bs g) := by
  intro ps
  induction ps with
  | nil => intro bs g _; cases bs <;> rfl
  | cons p ps ih =>
    intro bs g h
    cases bs with
    | nil => rfl
    | cons b bs =>
      obtain ⟨r, c⟩ := p
      obtain ⟨h1, h2, h3, h4⟩ := h (r, c) (List.mem_cons_self _ _)
      have hr : readPx g r c = some (g.px r c) := by rw [readPx, if_pos ⟨h1, h2⟩]
      have hw : writePx g c r (lsbWrite (g.px r c) b) =
          some (pxWrite g c r (lsbWrite (g.px r c) b)) := by rw [writePx, if_pos ⟨h3, h4⟩]
      show (match readPx g r c with
        | none => none
        | some p =>
          match writePx g c r (lsbWrite p b) with
          | none => none
          | some g2 => hideLoop ps bs g2) = some (hideLoopT ps bs (pxWrite g c r (lsbWrite (g.px r c) b)))
      simp only [hr, hw]
      exact ih bs (pxWrite g c r (lsbWrite (g.px r c) b)) (fun q hq => h q (List.mem_cons_of_mem _ hq))

theorem hideLoopT_tails : ∀ (ps : List (Nat × Nat)) (bs : List Nat) (g0 g : Img),
    (∀ a b, (g0.px a b).2 = (g0.px b a).2) →
    (∀ a b, (g.px a b).2 = (g0.px a b).2) →
    ∀ x y, ((hideLoopT ps bs g).px x y).2 = (g0.px x y).2 := by
  intro ps
  induction ps with
  | nil => intro bs g0 g _ hinv x y; cases bs <;> exact hinv x y
  | cons p ps ih =>
    intro bs g0 g hsym hinv x y
    cases bs with
    | nil => exact hinv x y
    | cons b bs =>
      obtain ⟨r, c⟩ := p
      show ((hideLoopT ps bs (pxWrite g c r (lsbWrite (g.px r c) b))).px x y).2 = (g0.px x y).2
      apply ih bs g0 _ hsym
      intro a a2
      rw [pxWrite_px]
      by_cases hcnd : a = c ∧ a2 = r
      · rw [if_pos hcnd, hcnd.1, hcnd.2]
        show (g.px r c).2 = (g0.px c r).2
        rw [hinv r c]
        exact hsym r c
      · rw [if_neg hcnd]
        exact hinv a a2

/-! ### Lemmas about the extraction walk -/

theorem revealLoop_eq_revealBits : ∀ (ps : List (Nat × Nat)) (acc : List Nat) (g : Img),
    (∀ q ∈ ps, q.2 < g.width ∧ q.1 < g.height) →
    revealLoop ps acc g = some (revealBits acc (ps.map (fun q => (g.px q.2 q.1).1 % 2))) := by
  intro ps
  induction ps with
  | nil => intro acc g _; rfl
  | cons p ps ih =>
    intro acc g h
    obtain ⟨r, c⟩ := p
    obtain ⟨h1, h2⟩ := h (r, c) (List.mem_cons_self _ _)
    have hr : readPx g c r = some (g.px c r) := by rw [readPx, if_pos ⟨h1, h2⟩]
    simp only [revealLoop, hr, List.map_cons, revealBits]
    by_cases hsuf : delimeter <:+ (acc ++ [(g.px c r).1 % 2])
    · rw [if_pos hsuf, if_pos hsuf]
    · rw [if_neg hsuf, if_neg hsuf]
      exact ih (acc ++ [(g.px c r).1 % 2]) g (fun q hq => h q (List.mem_cons_of_mem _ hq))

theorem revealBits_cons (acc : List Nat) (b : Nat) (bs : List Nat) :
    revealBits acc (b :: bs) =
      if delimeter <:+ (acc ++ [b]) then
        binary_to_text ((acc ++ [b]).take ((acc ++ [b]).length - 16))
      else revealBits (acc ++ [b]) bs := rfl

theorem revealBits_first_match : ∀ (p acc rest : List Nat),
    delimeter <:+ (acc ++ p) →
    (∀ k < p.length, ¬ delimeter <:+ (acc ++ p.take k)) →
    p ≠ [] →
    revealBits acc (p ++ rest) = binary_to_text ((acc ++ p).take ((acc ++ p).length - 16)) := by
  intro p
  induction p with
  | nil => intro acc rest _ _ hne; exact absurd rfl hne
  | cons b p ih =>
    intro acc rest hsuf hmin _
    cases p with
    | nil =>
      show revealBits acc (b :: rest) = _
      simp only [revealBits]
      rw [if_pos hsuf]
    | cons b2 p2 =>
      have hnomatch : ¬ delimeter <:+ (acc ++ [b]) := by
        have h1 := hmin 1 (by simp)
        simpa using h1
      show revealBits acc (b :: ((b2 :: p2) ++ rest)) = _
      rw [revealBits_cons, if_neg hnomatch]
      have hs : delimeter <:+ ((acc ++ [b]) ++ (b2 :: p2)) := by
        simpa [List.append_assoc] using hsuf
      have hm : ∀ k < (b2 :: p2).length, ¬ delimeter <:+ ((acc ++ [b]) ++ (b2 :: p2).take k) := by
        intro k hk
        have h1 := hmin (k + 1) (by simp only [List.length_cons] at hk ⊢; omega)
        simpa [List.append_assoc] using h1
      have hih := ih (acc ++ [b]) rest hs hm (by simp)
      rw [hih]
      simp [List.append_assoc]

theorem revealBits_no_match : ∀ (bs acc : List Nat),
    (∀ l, l <+: bs → ¬ delimeter <:+ (acc ++ l)) →
    revealBits acc bs = errStr := by
  intro bs
  induction bs with
  | nil => intro acc _; rfl
  | cons b bs ih =>
    intro acc h
    show revealBits acc (b :: bs) = errStr
    simp only [revealBits]
    rw [if_neg (h [b] ⟨bs, rfl⟩)]
    apply ih
    intro l hl
    obtain ⟨t, ht⟩ := hl
    have h2 := h (b :: l) ⟨t, by rw [← ht]; rfl⟩
    simpa [List.append_assoc] using h2

theorem reveal_message_square (g : Img) (hsq : g.width = g.height) :
    reveal_message g = some (revealBits [] (bitStream g)) := by
  apply revealLoop_eq_revealBits
  intro q hq
  obtain ⟨hq1, hq2⟩ := (scanPairs_mem _ _ q).mp hq
  exact ⟨by omega, by omega⟩

theorem reveal_message_match (g : Img) (p rest : List Nat)
    (hsq : g.width = g.height)
    (hbs : bitStream g = p ++ rest)
    (hsuf : delimeter <:+ p)
    (hmin : ∀ k < p.length, ¬ delimeter <:+ p.take k) :
    reveal_message g = some (binary_to_text (p.take (p.length - 16))) := by
  rw [reveal_message_square g hsq, hbs]
  have hne : p ≠ [] := by
    intro h0
    have hlen := List.IsSuffix.length_le hsuf
    rw [h0] at hlen
    simp [delimeter] at hlen
  have := revealBits_first_match p [] rest (by simpa using hsuf) (by simpa using hmin) hne
  simpa using this

theorem reveal_message_no_match (g : Img)
    (hsq : g.width = g.height)
    (hnm : ∀ k ≤ (bitStream g).length, ¬ delimeter <:+ (bitStream g).take k) :
    reveal_message g = some errStr := by
  rw [reveal_message_square g hsq]
  apply congrArg
  apply revealBits_no_match
  intro l hl
  have hlen : l.length ≤ (bitStream g).length := hl.length_le
  have heq : l = (bitStream g).take l.length := List.prefix_iff_eq_take.mp hl
  have h2 := hnm l.length hlen
  rw [← heq] at h2
  simpa using h2

theorem hide_message_square (g : Img) (hsq : g.width = g.height) (msg : List Nat) :
    hide_message g msg =
      some (hideLoopT (scanPairs g.width g.height) (text_to_binary msg ++ delimeter) g) := by
  apply hideLoop_eq_total
  intro q hq
  obtain ⟨h1, h2⟩ := (scanPairs_mem _ _ q).mp hq
  exact ⟨h1, h2, by omega, by omega⟩

theorem bitStream_dims (g : Img) : (bitStream g).length = g.width * g.height := by
  rw [bitStream, List.length_map, scanPairs_length]

theorem bitStream_hide_prefix (g : Img) (bs : List Nat)
    (hble : bs.length ≤ g.width * g.height) (hbits : ∀ b ∈ bs, b ≤ 1) :
    (bitStream (hideLoopT (scanPairs g.width g.height) bs g)).take bs.length = bs := by
  have hdims := hideLoopT_dims (scanPairs g.width g.height) bs g
  have hbsrep : bitStream (hideLoopT (scanPairs g.width g.height) bs g) =
      (scanPairs g.width g.height).map
        (fun q => ((hideLoopT (scanPairs g.width g.height) bs g).px q.2 q.1).1 % 2) := by
    rw [bitStream, hdims.1, hdims.2]
  rw [hbsrep]
  apply List.ext_get
  · rw [List.length_take, List.length_map, scanPairs_length]
    omega
  · intro k hk1 hk2
    have hkps : k < (scanPairs g.width g.height).length := by
      rw [scanPairs_length]
      omega
    have hlsb := hideLoopT_lsb (scanPairs g.width g.height) bs g k hkps hk2
      (scanPairs_nodup _ _) hbits
    simp only [List.get_eq_getElem, List.getElem_take, List.getElem_map]
    simp only [List.get_eq_getElem] at hlsb
    exact hlsb

theorem hide_then_reveal (g : Img) (msg : List Nat)
    (hsq : g.width = g.height)
    (hcode : ∀ c ∈ msg, c ≤ 255)
    (hcap : 8 * msg.length + 16 ≤ g.width * g.height)
    (hne : ∀ k < (text_to_binary msg ++ delimeter).length,
      ¬ delimeter <:+ ((text_to_binary msg ++ delimeter).take k)) :
    (hide_message g msg).bind reveal_message = some msg := by
  have hblen : (text_to_binary msg ++ delimeter).length = 8 * msg.length + 16 := by
    rw [List.length_append, text_to_binary_length msg hcode]
    rfl
  have hble : (text_to_binary msg ++ delimeter).length ≤ g.width * g.height := by omega
  have hbits : ∀ b ∈ text_to_binary msg ++ delimeter, b ≤ 1 := by
    intro b hb
    rcases List.mem_append.mp hb with h | h
    · exact text_to_binary_bits msg b h
    · exact delimeter_bits b h
  rw [hide_message_square g hsq msg]
  show reveal_message (hideLoopT (scanPairs g.width g.height) (text_to_binary msg ++ delimeter) g) =
    some msg
  have hdims := hideLoopT_dims (scanPairs g.width g.height) (text_to_binary msg ++ delimeter) g
  have hpre := bitStream_hide_prefix g (text_to_binary msg ++ delimeter) hble hbits
  have hsplit := (List.take_append_drop (text_to_binary msg ++ delimeter).length
    (bitStream (hideLoopT (scanPairs g.width g.height) (text_to_binary msg ++ delimeter) g))).symm
  rw [hpre] at hsplit
  have hrev := reveal_message_match
    (hideLoopT (scanPairs g.width g.height) (text_to_binary msg ++ delimeter) g)
    (text_to_binary msg ++ delimeter) _
    (by rw [hdims.1, hdims.2, hsq]) hsplit (List.suffix_append _ _) hne
  rw [hrev]
  have htake : (text_to_binary msg ++ delimeter).take ((text_to_binary msg ++ delimeter).length - 16) =
      text_to_binary msg := by
    have h16 : (text_to_binary msg ++ delimeter).length - 16 = (text_to_binary msg).length := by
      rw [List.length_append]
      rfl
    rw [h16, List.take_left]
  rw [htake, binary_to_text_text_to_binary msg hcode]

/-! ### Out-of-bounds behavior on non-square grids -/

theorem hideLoop_oob : ∀ (ps : List (Nat × Nat)) (bs : List Nat) (g : Img),
    (∀ q ∈ ps, q.1 < g.width ∧ q.2 < g.height) →
    (∃ q ∈ ps, ¬ (q.2 < g.width ∧ q.1 < g.height)) →
    ps.length ≤ bs.length →
    hideLoop ps bs g = none := by
  intro ps
  induction ps with
  | nil => intro bs g _ hex _; simp at hex
  | cons p ps ih =>
    intro bs g hrd hex hlen
    cases bs with
    | nil => simp at hlen
    | cons b bs =>
      obtain ⟨r, c⟩ := p
      obtain ⟨h1, h2⟩ := hrd (r, c) (List.mem_cons_self _ _)
      have hr : readPx g r c = some (g.px r c) := by rw [readPx, if_pos ⟨h1, h2⟩]
      simp only [hideLoop, hr]
      by_cases hok : c < g.width ∧ r < g.height
      · have hw : writePx g c r (lsbWrite (g.px r c) b) =
            some (pxWrite g c r (lsbWrite (g.px r c) b)) := by rw [writePx, if_pos hok]
        simp only [hw]
        apply ih bs (pxWrite g c r (lsbWrite (g.px r c) b))
        · exact fun q hq => hrd q (List.mem_cons_of_mem _ hq)
        · rcases hex with ⟨q, hq, hoob⟩
          rcases List.mem_cons.mp hq with rfl | hq2
          · exact absurd hok hoob
          · exact ⟨q, hq2, hoob⟩
        · simpa using Nat.le_of_succ_le_succ (by simpa using hlen)
      · have hw : writePx g c r (lsbWrite (g.px r c) b) = none := by rw [writePx, if_neg hok]
        simp only [hw]

theorem revealLoop_oob : ∀ (ps : List (Nat × Nat)) (acc : List Nat) (g : Img),
    (∃ q ∈ ps, ¬ (q.2 < g.width ∧ q.1 < g.height)) →
    (∀ l, l <+: ps.map (fun q => (g.px q.2 q.1).1 % 2) → ¬ delimeter <:+ (acc ++ l)) →
    revealLoop ps acc g = none := by
  intro ps
  induction ps with
  | nil => intro acc g hex _; simp at hex
  | cons p ps ih =>
    intro acc g hex hnm
    obtain ⟨r, c⟩ := p
    by_cases hok : c < g.width ∧ r < g.height
    · have hr : readPx g c r = some (g.px c r) := by rw [readPx, if_pos hok]
      simp only [revealLoop, hr]
      rw [if_neg (hnm [(g.px c r).1 % 2]
        ⟨ps.map (fun q => (g.px q.2 q.1).1 % 2), by simp⟩)]
      apply ih
      · rcases hex with ⟨q, hq, hoob⟩
        rcases List.mem_cons.mp hq with rfl | hq2
        · exact absurd hok hoob
        · exact ⟨q, hq2, hoob⟩
      · intro l hl
        obtain ⟨t, ht⟩ := hl
        have h2 := hnm ((g.px c r).1 % 2 :: l)
          ⟨t, by simp [List.map_cons, List.cons_append, ht]⟩
        simpa [List.append_assoc] using h2
    · have hr : readPx g c r = none := by rw [readPx, if_neg hok]
      simp only [revealLoop, hr]

theorem scanPairs_oob_member (W H : Nat) (hne : W ≠ H) (hW : 0 < W) (hH : 0 < H) :
    ∃ q ∈ scanPairs W H, ¬ (q.2 < W ∧ q.1 < H) := by
  rcases Nat.lt_or_ge W H with hlt | hge
  · refine ⟨(0, W), (scanPairs_mem W H (0, W)).mpr ⟨hW, hlt⟩, ?_⟩
    intro hc
    exact absurd hc.1 (lt_irrefl W)
  · have hlt : H < W := lt_of_le_of_ne hge (fun h => hne h.symm)
    refine ⟨(H, 0), (scanPairs_mem W H (H, 0)).mpr ⟨hlt, hH⟩, ?_⟩
    intro hc
    exact absurd hc.2 (lt_irrefl H)

theorem hide_message_nonsquare (g : Img) (msg : List Nat)
    (hne : g.width ≠ g.height) (hW : 0 < g.width) (hH : 0 < g.height)
    (hlen : g.width * g.height ≤ (text_to_binary msg ++ delimeter).length) :
    hide_message g msg = none := by
  apply hideLoop_oob
  · intro q hq
    exact (scanPairs_mem _ _ q).mp hq
  · exact scanPairs_oob_member _ _ hne hW hH
  · rw [scanPairs_length]
    exact hlen

theorem reveal_message_nonsquare (g : Img)
    (hne : g.width ≠ g.height) (hW : 0 < g.width) (hH : 0 < g.height)
    (hnm : ∀ k ≤ (bitStream g).length, ¬ delimeter <:+ (bitStream g).take k) :
    reveal_message g = none := by
  apply revealLoop_oob
  · exact scanPairs_oob_member _ _ hne hW hH
  · intro l hl
    have hlen : l.length ≤ (bitStream g).length := hl.length_le
    have heq : l = (bitStream g).take l.length := List.prefix_iff_eq_take.mp hl
    have h2 := hnm l.length hlen
    rw [← heq] at h2
    simpa using h2

/-! ### Shape of binary_to_text on arbitrary bitstreams -/

theorem binary_to_text_length_aux : ∀ (n : Nat) (bs : List Nat), bs.length ≤ n →
    (binary_to_text bs).length = (bs.length + 7) / 8 := by
  intro n
  induction n with
  | zero =>
    intro bs h
    have : bs = [] := List.eq_nil_of_length_eq_zero (by omega)
    subst this
    rfl
  | succ n ih =>
    intro bs h
    by_cases h0 : bs = []
    · subst h0; rfl
    · rw [binary_to_text_step bs h0]
      have hlen : (bs.drop 8).length = bs.length - 8 := by simp
      have hpos : 0 < bs.length := List.length_pos.mpr h0
      have := ih (bs.drop 8) (by omega)
      rw [List.length_cons, this, hlen]
      omega

theorem binary_to_text_length (bs : List Nat) :
    (binary_to_text bs).length = (bs.length + 7) / 8 :=
  binary_to_text_length_aux bs.length bs (le_refl _)

theorem binary_to_text_get_aux : ∀ (n : Nat) (bs : List Nat), bs.length ≤ n →
    ∀ (k : Nat) (h : k < (binary_to_text bs).length),
    (binary_to_text bs).get ⟨k, h⟩ = bitsToNat ((bs.drop (8 * k)).take 8) := by
  intro n
  induction n with
  | zero =>
    intro bs hb k h
    have : bs = [] := List.eq_nil_of_length_eq_zero (by omega)
    subst this
    simp [binary_to_text] at h
  | succ n ih =>
    intro bs hb k h
    by_cases h0 : bs = []
    · subst h0; simp [binary_to_text] at h
    · cases k with
      | zero =>
        rw [List.get_of_eq (binary_to_text_step bs h0)]
        simp
      | succ k =>
        have hstep := binary_to_text_step bs h0
        rw [List.get_of_eq hstep]
        have hlt : k < (binary_to_text (bs.drop 8)).length := by
          have := congrArg List.length hstep
          simp only [List.length_cons] at this
          omega
        have hrec := ih (bs.drop 8) (by simp; omega) k hlt
        show (binary_to_text (bs.drop 8)).get ⟨k, hlt⟩ = _
        rw [hrec, List.drop_drop]
        have harith : 8 + 8 * k = 8 * (k + 1) := by omega
        rw [harith]

theorem binary_to_text_get (bs : List Nat) (k : Nat) (h : k < (binary_to_text bs).length) :
    (binary_to_text bs).get ⟨k, h⟩ = bitsToNat ((bs.drop (8 * k)).take 8) :=
  binary_to_text_get_aux bs.length bs (le_refl _) k h

/-! ### Write-target bookkeeping -/

theorem mem_write_targets (W H m x y : Nat)
    (hm : (x, y) ∈ ((scanPairs W H).take m).map Prod.swap) :
    ∃ k, k < m ∧ k < W * H ∧ k % H = x ∧ k / H = y := by
  rcases List.mem_map.mp hm with ⟨q, hq, hswap⟩
  rcases List.mem_take_iff_getElem.mp hq with ⟨k, hk, hget⟩
  have hkps : k < (scanPairs W H).length := by
    rw [scanPairs_length]
    rw [scanPairs_length] at hk
    omega
  have hkm : k < m := by
    rw [scanPairs_length] at hk
    omega
  have hgetk : (scanPairs W H).get ⟨k, hkps⟩ = (k / H, k % H) := scanPairs_get W H k hkps
  have hq2 : q = (k / H, k % H) := by
    rw [← hgetk]
    rw [← hget]
    simp
  refine ⟨k, hkm, by rw [scanPairs_length] at hkps; exact hkps, ?_, ?_⟩
  · rw [hq2] at hswap
    have := congrArg Prod.fst hswap
    simpa using this
  · rw [hq2] at hswap
    have := congrArg Prod.snd hswap
    simpa using this

/-! ### Block structure of the encoder -/

theorem text_to_binary_block (msg : List Nat) (hcode : ∀ c ∈ msg, c ≤ 255) :
    ∀ (k : Nat) (h : k < msg.length),
    ((text_to_binary msg).drop (8 * k)).take 8 = format08b (msg.get ⟨k, h⟩) := by
  induction msg with
  | nil => intro k h; simp at h
  | cons c cs ih =>
    intro k h
    have h8 := format08b_length c (hcode c (List.mem_cons_self c cs))
    rw [text_to_binary_cons]
    cases k with
    | zero =>
      simp only [Nat.mul_zero, List.drop_zero]
      rw [List.take_left' h8]
      rfl
    | succ k =>
      have harith : 8 * (k + 1) = 8 + 8 * k := by omega
      rw [harith, ← List.drop_drop, List.drop_left' h8]
      exact ih (fun x hx => hcode x (List.mem_cons_of_mem c hx)) k (Nat.lt_of_succ_lt_succ h)

/-! ### The claims -/

/-- Claim C3: both walks enumerate loop pairs first axis outer, second axis
inner (the k-th pair is `(k / H, k % H)`); at each step `hide_message`
writes at the index pair `pixels[column, row]`, which is exactly the index
pair `reveal_message` reads at the same step; the per-step loop unfoldings
of both walks exhibit those access indices. -/
theorem claim_C3 :
    (∀ W H : Nat, (hideAccess W H).map Prod.snd = revealAccess W H) ∧
    (∀ W H : Nat, scanPairs W H = (List.range (W * H)).map (fun k => (k / H, k % H))) ∧
    (∀ (r c : Nat) (ps : List (Nat × Nat)) (b : Nat) (bs : List Nat) (g : Img),
      r < g.width → c < g.height → c < g.width → r < g.height →
      hideLoop ((r, c) :: ps) (b :: bs) g =
        hideLoop ps bs (pxWrite g c r (lsbWrite (g.px r c) b))) ∧
    (∀ (r c : Nat) (ps : List (Nat × Nat)) (acc : List Nat) (g : Img),
      c < g.width → r < g.height →
      revealLoop ((r, c) :: ps) acc g =
        if delimeter <:+ (acc ++ [(g.px c r).1 % 2]) then
          some (binary_to_text
            ((acc ++ [(g.px c r).1 % 2]).take ((acc ++ [(g.px c r).1 % 2]).length - 16)))
        else revealLoop ps (acc ++ [(g.px c r).1 % 2]) g) := by
  refine ⟨?_, scanPairs_eq, ?_, ?_⟩
  · intro W H
    simp [hideAccess, revealAccess, List.map_map]
  · intro r c ps b bs g h1 h2 h3 h4
    have hr : readPx g r c = some (g.px r c) := by rw [readPx, if_pos ⟨h1, h2⟩]
    have hw : writePx g c r (lsbWrite (g.px r c) b) =
        some (pxWrite g c r (lsbWrite (g.px r c) b)) := by rw [writePx, if_pos ⟨h3, h4⟩]
    simp only [hideLoop, hr, hw]
  · intro r c ps acc g h1 h2
    have hr : readPx g c r = some (g.px c r) := by rw [readPx, if_pos ⟨h1, h2⟩]
    simp only [revealLoop, hr]

theorem claim_C3_witness :
    hideLoop [(0, 1)] [1] (zeroGrid 2 2) =
      hideLoop [] [] (pxWrite (zeroGrid 2 2) 1 0 (lsbWrite ((zeroGrid 2 2).px 0 1) 1)) :=
  claim_C3.2.2.1 0 1 [] 1 [] (zeroGrid 2 2) (by decide) (by decide) (by decide) (by decide)

/-- Claim C4: extraction stops at the first step at which the buffer's
trailing 16 bits equal the delimiter: whatever bits follow (`rest` is
arbitrary, so no further pixel is read), the trailing 16 bits are dropped
and the decode of the remaining prefix is returned; the same holds for
`reveal_message` itself on an image whose LSB stream starts this way. -/
theorem claim_C4 :
    (∀ p rest : List Nat, delimeter <:+ p →
      (∀ k < p.length, ¬ delimeter <:+ p.take k) →
      revealBits [] (p ++ rest) = binary_to_text (p.take (p.length - 16))) ∧
    (∀ (g : Img) (p rest : List Nat), g.width = g.height →
      bitStream g = p ++ rest → delimeter <:+ p →
      (∀ k < p.length, ¬ delimeter <:+ p.take k) →
      reveal_message g = some (binary_to_text (p.take (p.length - 16)))) := by
  constructor
  · intro p rest hsuf hmin
    have hne : p ≠ [] := by
      intro h0
      have hlen := List.IsSuffix.length_le hsuf
      rw [h0] at hlen
      simp [delimeter] at hlen
    have := revealBits_first_match p [] rest (by simpa using hsuf) (by simpa using hmin) hne
    simpa using this
  · intro g p rest hsq hbs hsuf hmin
    exact reveal_message_match g p rest hsq hbs hsuf hmin

theorem claim_C4_witness : reveal_message gridC4 = some [] := by
  have h := claim_C4.2 gridC4 delimeter [] rfl (by decide) (by decide) (by decide)
  exact h.trans (by decide)

/-- Claim C5 counterexample: a 1 by 2 image (non-square) whose LSB scan
never matches the delimiter; `reveal_message` raises an out-of-bounds
access (modelled `none`) instead of returning the string `"ERROR"`. -/
theorem claim_C5_cex :
    (∀ k ≤ (bitStream (zeroGrid 1 2)).length,
      ¬ delimeter <:+ (bitStream (zeroGrid 1 2)).take k) ∧
    reveal_message (zeroGrid 1 2) = none := by
  constructor
  · decide
  · decide

/-- Claim C5 (amended to square images): if no prefix of the LSB scan ends
with the delimiter, `reveal_message` returns the value `"ERROR"`. -/
theorem claim_C5_amended (g : Img) (hsq : g.width = g.height)
    (hnm : ∀ k ≤ (bitStream g).length, ¬ delimeter <:+ (bitStream g).take k) :
    reveal_message g = some errStr :=
  reveal_message_no_match g hsq hnm

theorem claim_C5_witness : reveal_message (zeroGrid 2 2) = some errStr :=
  claim_C5_amended (zeroGrid 2 2) rfl (by decide)

/-- Claim C6 counterexample: on the one-bit stream `[1]` the decoder
produces one character (the partial group is parsed), not `1 / 8 = 0`
characters as the floor-division claim states. -/
theorem claim_C6_cex : binary_to_text [1] = [1] ∧ (1 : Nat) / 8 = 0 := by
  constructor
  · decide
  · decide

/-- Claim C6 (amended): decode groups bits into runs of 8 and parses each
as an unsigned integer, and a final partial group is parsed from its
fewer-than-8 bits as one further character (ceiling, not floor): the
output has `(len + 7) / 8` characters and the k-th character is the value
of bits `8k..8k+7`. -/
theorem claim_C6_amended (bs : List Nat) :
    (binary_to_text bs).length = (bs.length + 7) / 8 ∧
    ∀ (k : Nat) (h : k < (binary_to_text bs).length),
      (binary_to_text bs).get ⟨k, h⟩ = bitsToNat ((bs.drop (8 * k)).take 8) :=
  ⟨binary_to_text_length bs, fun k h => binary_to_text_get bs k h⟩

theorem claim_C6_witness :
    (binary_to_text [1, 1, 0, 0, 0, 0, 0, 1, 1]).get ⟨1, by decide⟩ =
      bitsToNat (([1, 1, 0, 0, 0, 0, 0, 1, 1].drop (8 * 1)).take 8) :=
  (claim_C6_amended [1, 1, 0, 0, 0, 0, 0, 1, 1]).2 1 (by decide)

/-- Claim C7: for messages whose character codes fit in a byte, the encoder
emits exactly one 8-bit unsigned binary block per character, in order, with
no separators: the output length is `8 * len`, and the k-th 8-bit block
consists of bits and has value equal to the k-th character code. -/
theorem claim_C7 (msg : List Nat) (hcode : ∀ c ∈ msg, c ≤ 255) :
    (text_to_binary msg).length = 8 * msg.length ∧
    ∀ (k : Nat) (h : k < msg.length),
      (((text_to_binary msg).drop (8 * k)).take 8).length = 8 ∧
      (∀ b ∈ ((text_to_binary msg).drop (8 * k)).take 8, b ≤ 1) ∧
      bitsToNat (((text_to_binary msg).drop (8 * k)).take 8) = msg.get ⟨k, h⟩ := by
  refine ⟨text_to_binary_length msg hcode, ?_⟩
  intro k h
  rw [text_to_binary_block msg hcode k h]
  exact ⟨format08b_length _ (hcode _ (List.get_mem msg k h)), format08b_bits _, bitsToNat_format08b _⟩

theorem claim_C7_witness :
    (text_to_binary [72]).length = 8 * ([72] : List Nat).length ∧
      bitsToNat (((text_to_binary [72]).drop (8 * 0)).take 8) = ([72] : List Nat).get ⟨0, by decide⟩ :=
  ⟨(claim_C7 [72] (by decide)).1, ((claim_C7 [72] (by decide)).2 0 (by decide)).2.2⟩

/-- Claim C10: on any non-square grid both walks access an out-of-bounds
index: `hide_message` raises (returns `none`) whenever the bitstream is at
least as long as the pixel count, and `reveal_message` raises whenever no
delimiter match occurs in the scan prefix - both operations are total only
on square grids. -/
theorem claim_C10 (g : Img) (msg : List Nat)
    (hne : g.width ≠ g.height) (hW : 0 < g.width) (hH : 0 < g.height) :
    (g.width * g.height ≤ (text_to_binary msg ++ delimeter).length →
      hide_message g msg = none) ∧
    ((∀ k ≤ (bitStream g).length, ¬ delimeter <:+ (bitStream g).take k) →
      reveal_message g = none) :=
  ⟨fun h => hide_message_nonsquare g msg hne hW hH h,
   fun h => reveal_message_nonsquare g hne hW hH h⟩

theorem claim_C10_witness :
    hide_message (zeroGrid 1 2) [72] = none ∧ reveal_message (zeroGrid 1 2) = none :=
  ⟨(claim_C10 (zeroGrid 1 2) [72] (by decide) (by decide) (by decide)).1 (by decide),
   (claim_C10 (zeroGrid 1 2) [72] (by decide) (by decide) (by decide)).2 (by decide)⟩

/-- Claim C1 counterexample: the message with character codes `[255, 254]`
(all in `[0,255]`) on an all-zero 6 by 6 image (36 pixels, at least
`8*2+16 = 32`): its encoded bits spell the delimiter after 16 steps, so
revealing after hiding returns the empty message, not the original. -/
theorem claim_C1_cex :
    8 * ([255, 254] : List Nat).length + 16 ≤ (zeroGrid 6 6).width * (zeroGrid 6 6).height ∧
    (hide_message (zeroGrid 6 6) [255, 254]).bind reveal_message = some [] ∧
    ([] : List Nat) ≠ [255, 254] := by
  refine ⟨by decide, by decide, by decide⟩

/-- Claim C1 (amended): the roundtrip holds for square images of
sufficient capacity whenever the encoded bitstream contains the delimiter
as a window only at its very end. -/
theorem claim_C1_amended (g : Img) (msg : List Nat)
    (hsq : g.width = g.height)
    (hcode : ∀ c ∈ msg, c ≤ 255)
    (hcap : 8 * msg.length + 16 ≤ g.width * g.height)
    (hne : ∀ k < (text_to_binary msg ++ delimeter).length,
      ¬ delimeter <:+ ((text_to_binary msg ++ delimeter).take k)) :
    (hide_message g msg).bind reveal_message = some msg :=
  hide_then_reveal g msg hsq hcode hcap hne

theorem claim_C1_witness :
    (hide_message (zeroGrid 5 5) [65]).bind reveal_message = some [65] :=
  claim_C1_amended (zeroGrid 5 5) [65] rfl (by decide) (by decide) (by decide)

/-- Claim C2 counterexample: hiding the empty message in `gridC2` changes
the secondary (non-embedding) channel of pixel `(1,0)` from 9 to 5,
because the walk writes at `pixels[column, row]` the whole tuple it read
at `pixels[row, column]`. -/
theorem claim_C2_cex :
    ((hide_message gridC2 []).map (fun gg => (gg.px 1 0).2) = some [5]) ∧
    (gridC2.px 1 0).2 = [9] := by
  refine ⟨by decide, by decide⟩

/-- Claim C2 (amended, for square images): `hide_message` leaves every
pixel outside the write targets of the first `len(bits)` steps fully
unchanged; and if every pixel's non-embedding channels agree with those of
the transposed pixel (for example on constant images), then no
non-embedding channel anywhere is altered.  (In general the non-embedding
channels of a written pixel become those of the transposed pixel.) -/
theorem claim_C2_amended (g : Img) (msg : List Nat) (hsq : g.width = g.height) :
    hide_message g msg =
      some (hideLoopT (scanPairs g.width g.height) (text_to_binary msg ++ delimeter) g) ∧
    (∀ x y : Nat,
      (x, y) ∉ ((scanPairs g.width g.height).take
        (text_to_binary msg ++ delimeter).length).map Prod.swap →
      (hideLoopT (scanPairs g.width g.height) (text_to_binary msg ++ delimeter) g).px x y
        = g.px x y) ∧
    ((∀ a b : Nat, (g.px a b).2 = (g.px b a).2) →
      ∀ x y : Nat,
        ((hideLoopT (scanPairs g.width g.height) (text_to_binary msg ++ delimeter) g).px x y).2
          = (g.px x y).2) :=
  ⟨hide_message_square g hsq msg,
   fun x y h => hideLoopT_frame _ _ g x y h,
   fun hsym x y => hideLoopT_tails _ _ g g hsym (fun _ _ => rfl) x y⟩

theorem claim_C2_witness :
    hide_message (zeroGrid 3 3) [] =
      some (hideLoopT (scanPairs (zeroGrid 3 3).width (zeroGrid 3 3).height)
        (text_to_binary [] ++ delimeter) (zeroGrid 3 3)) :=
  (claim_C2_amended (zeroGrid 3 3) [] rfl).1

/-- Claim C8 counterexample: a 1 by 16 image has 16 pixels but hiding the
empty message raises an out-of-bounds write (returns `none`); and on a
square 4 by 4 image whose pixel `(0,1)` has embedding channel 2, hiding
the empty message rewrites pixel `(1,0)` from `(0, [])` to `(3, [])` -
more than the 16 delimiter LSBs change. -/
theorem claim_C8_cex :
    hide_message (zeroGrid 1 16) [] = none ∧
    ((hide_message gridC8 []).map (fun gg => gg.px 1 0) = some (3, [])) ∧
    gridC8.px 1 0 = (0, []) := by
  refine ⟨by rfl, by decide, by decide⟩

/-- Claim C8 (amended, for square images): hiding the empty message embeds
exactly the 16 delimiter bits into the embedding-channel LSBs of the first
16 write targets, every other pixel is unchanged, and revealing the result
returns the empty string.  (The non-LSB content of a written pixel comes
from the transposed pixel, see the counterexample.) -/
theorem claim_C8_amended (g : Img) (hsq : g.width = g.height)
    (hge : 16 ≤ g.width * g.height) :
    hide_message g [] =
      some (hideLoopT (scanPairs g.width g.height) (text_to_binary [] ++ delimeter) g) ∧
    (∀ x y : Nat, x < g.width → y < g.height → 16 ≤ g.height * y + x →
      (hideLoopT (scanPairs g.width g.height) (text_to_binary [] ++ delimeter) g).px x y
        = g.px x y) ∧
    (∀ (k : Nat) (hk : k < 16),
      ((hideLoopT (scanPairs g.width g.height) (text_to_binary [] ++ delimeter) g).px
          (k % g.height) (k / g.height)).1 % 2 = delimeter.get ⟨k, hk⟩) ∧
    reveal_message (hideLoopT (scanPairs g.width g.height) (text_to_binary [] ++ delimeter) g)
      = some [] := by
  have hlen : (text_to_binary [] ++ delimeter).length = 16 := rfl
  have hbits : ∀ b ∈ text_to_binary [] ++ delimeter, b ≤ 1 := by
    intro b hb
    exact delimeter_bits b (by simpa [text_to_binary] using hb)
  refine ⟨hide_message_square g hsq [], ?_, ?_, ?_⟩
  · intro x y hx hy hge2
    apply hideLoopT_frame
    intro hm
    obtain ⟨k, hk16, hkWH, hkmod, hkdiv⟩ := mem_write_targets _ _ _ _ _ hm
    rw [hlen] at hk16
    have hkval : k = g.height * (k / g.height) + k % g.height :=
      (Nat.div_add_mod k g.height).symm
    rw [hkmod, hkdiv] at hkval
    omega
  · intro k hk
    have hkps : k < (scanPairs g.width g.height).length := by
      rw [scanPairs_length]
      omega
    have hkbs : k < (text_to_binary [] ++ delimeter).length := by
      rw [hlen]
      exact hk
    have hlsb := hideLoopT_lsb (scanPairs g.width g.height) (text_to_binary [] ++ delimeter)
      g k hkps hkbs (scanPairs_nodup _ _) hbits
    rw [scanPairs_get] at hlsb
    exact hlsb
  · have hble : (text_to_binary [] ++ delimeter).length ≤ g.width * g.height := by
      rw [hlen]
      exact hge
    have hdims := hideLoopT_dims (scanPairs g.width g.height) (text_to_binary [] ++ delimeter) g
    have hpre := bitStream_hide_prefix g (text_to_binary [] ++ delimeter) hble hbits
    have hsplit := (List.take_append_drop (text_to_binary [] ++ delimeter).length
      (bitStream (hideLoopT (scanPairs g.width g.height) (text_to_binary [] ++ delimeter) g))).symm
    rw [hpre] at hsplit
    have hrev := reveal_message_match
      (hideLoopT (scanPairs g.width g.height) (text_to_binary [] ++ delimeter) g)
      (text_to_binary [] ++ delimeter) _
      (by rw [hdims.1, hdims.2, hsq]) hsplit (List.suffix_append _ _) (by decide)
    exact hrev.trans (by decide)

theorem claim_C8_witness :
    reveal_message (hideLoopT (scanPairs (zeroGrid 4 4).width (zeroGrid 4 4).height)
      (text_to_binary [] ++ delimeter) (zeroGrid 4 4)) = some [] :=
  (claim_C8_amended (zeroGrid 4 4) rfl (by decide)).2.2.2

/-- Claim C9 counterexample: a 1 by 2 image has fewer pixels (2) than the
bitstream of the two-character message `"Hi"` (32 bits), yet hiding does
not finish silently: the second step writes out of bounds and raises
(returns `none`) instead of saving. -/
theorem claim_C9_cex :
    (zeroGrid 1 2).width * (zeroGrid 1 2).height
        < (text_to_binary [72, 105] ++ delimeter).length ∧
    hide_message (zeroGrid 1 2) [72, 105] = none := by
  refine ⟨by decide, by rfl⟩

/-- Claim C9 (amended, for square images): when the pixel count is smaller
than the bitstream length, `hide_message` exhausts all pixels, writing one
bit into the embedding-channel LSB of every pixel of the grid, raises no
error and returns the modified image (which the caller then saves). -/
theorem claim_C9_amended (g : Img) (msg : List Nat)
    (hsq : g.width = g.height)
    (hlt : g.width * g.height < (text_to_binary msg ++ delimeter).length) :
    hide_message g msg =
      some (hideLoopT (scanPairs g.width g.height) (text_to_binary msg ++ delimeter) g) ∧
    ∀ x y : Nat, x < g.width → y < g.height →
      ((hideLoopT (scanPairs g.width g.height) (text_to_binary msg ++ delimeter) g).px x y).1 % 2
        = (text_to_binary msg ++ delimeter).getD (g.height * y + x) 2 := by
  refine ⟨hide_message_square g hsq msg, ?_⟩
  intro x y hx hy
  have hxH : x < g.height := by omega
  have hH : 0 < g.height := by omega
  have hk1 : g.height * y + x < g.height * (y + 1) := by
    rw [Nat.mul_succ]
    omega
  have hk2 : g.height * (y + 1) ≤ g.height * g.height := Nat.mul_le_mul_left _ (by omega)
  have hkWH : g.height * y + x < g.width * g.height := by
    rw [hsq]
    omega
  have hkps : g.height * y + x < (scanPairs g.width g.height).length := by
    rw [scanPairs_length]
    omega
  have hkbs : g.height * y + x < (text_to_binary msg ++ delimeter).length := by omega
  have hbits : ∀ b ∈ text_to_binary msg ++ delimeter, b ≤ 1 := by
    intro b hb
    rcases List.mem_append.mp hb with h | h
    · exact text_to_binary_bits msg b h
    · exact delimeter_bits b h
  have hlsb := hideLoopT_lsb (scanPairs g.width g.height) (text_to_binary msg ++ delimeter)
    g (g.height * y + x) hkps hkbs (scanPairs_nodup _ _) hbits
  rw [scanPairs_get] at hlsb
  have hdiv : (g.height * y + x) / g.height = y := by
    rw [Nat.add_comm, Nat.add_mul_div_left _ _ hH, Nat.div_eq_of_lt hxH, Nat.zero_add]
  have hmod : (g.height * y + x) % g.height = x := by
    rw [Nat.add_comm, Nat.add_mul_mod_self_left, Nat.mod_eq_of_lt hxH]
  rw [hdiv, hmod] at hlsb
  rw [List.getD_eq_getElem?_getD, List.getElem?_eq_getElem hkbs]
  simp only [Option.getD_some]
  simpa [List.get_eq_getElem] using hlsb

theorem claim_C9_witness :
    hide_message (zeroGrid 1 1) [72, 105] =
      some (hideLoopT (scanPairs (zeroGrid 1 1).width (zeroGrid 1 1).height)
        (text_to_binary [72, 105] ++ delimeter) (zeroGrid 1 1)) :=
  (claim_C9_amended (zeroGrid 1 1) [72, 105] rfl (by decide)).1
